import Mathlib

/-!
Verification model of `ml::static_vector` (fixed-capacity contiguous container)
and its supporting `storage_iterator` / `lazy_storage` components.

The container's live elements are modelled as a `List α` (index 0 = front);
the compile-time capacity `StaticSize` is a `Nat` parameter `cap`.
Operations that can throw are modelled as functions returning
`Option Err × List α`: the first component is `some e` when the C++ code
throws (and the exception propagates to the caller), and the second component
is the container's element state observed after the operation (including any
rollback the code performs in its `catch` handlers).

Element construction that can fail (a throwing `value_type` constructor) is
modelled by `Option α` arguments: `some x` means the construction succeeds and
produces the value `x`; `none` means the constructor throws.
-/

namespace StaticVector

/-- Error kinds surfaced by the container.  In the C++ source both the
full-container check of `emplace_back` and the capacity overflows of bulk
operations throw `std::logic_error`; `ctorFail` stands for an exception
propagated out of the element type's own constructor. -/
inductive Err where
  | cap
  | ctorFail
deriving DecidableEq

variable {α : Type}

/-- `static_vector::pop_back`: `if (!empty()) { m_size--; m_storage[m_size].destroy(); }`.
On the value level this drops the last live element; on an empty container it
is a no-op (`List.dropLast [] = []`). -/
def pop_back (v : List α) : List α := v.dropLast

/-- `static_vector::emplace_back`: throws the full-container `std::logic_error`
when `size () == max_size ()`; otherwise does `m_size++` and constructs the
new element at slot `m_size - 1`.  If the element constructor throws, the
`catch` handler runs `pop_back ()` and rethrows, so the observable element
state is the entry state. -/
def emplace_back (cap : Nat) (v : List α) (ctor : Option α) : Option Err × List α :=
  if v.length = cap then (some Err.cap, v)
  else
    match ctor with
    | some x => (none, v ++ [x])
    | none =>
      -- `m_size++` put a dead slot on top; the failed `construct` adds no
      -- element; `pop_back ()` in the catch handler removes the dead slot
      -- again, so the live elements observed after the rethrow are `v`.
      (some Err.ctorFail, v)

/-- One pass of the loop body of `static_vector::shrink_to`:
`while (std::cmp_less (count, size ())) pop_back ();`, unrolled with explicit
fuel.  The C++ loop has no other exit, so its reachable states are exactly
`shrink_to_iter count k v` for `k = 0, 1, 2, ...`. -/
def shrink_to_iter (count : Int) : Nat → List α → List α
  | 0, v => v
  | k + 1, v =>
    if count < (v.length : Int) then shrink_to_iter count k (pop_back v) else v

/-- The C++ `shrink_to` loop terminates exactly when some number of
iterations falsifies the loop condition `std::cmp_less (count, size ())`. -/
def shrink_to_halts (count : Int) (v : List α) : Prop :=
  ∃ k, ¬ count < (((shrink_to_iter count k v).length : Nat) : Int)

/-- `static_vector::shrink_to` run with fuel `v.length`.  For `count ≥ 0`
the loop needs at most `v.length` iterations, so this equals the C++
behaviour; for `count < 0` the C++ loop never terminates (see
`shrink_to_neg_one_never_halts`). -/
def shrink_to (count : Int) (v : List α) : List α :=
  shrink_to_iter count v.length v

/-- Loop of `static_vector::shrink_by`:
`while (std::cmp_less (0, count) && !empty ()) { --count; pop_back (); }`,
with explicit fuel.  Each executed iteration pops one element, so fuel
`v.length` always suffices. -/
def shrink_by_iter : Int → Nat → List α → List α
  | _, 0, v => v
  | count, k + 1, v =>
    if 0 < count ∧ v.length ≠ 0 then shrink_by_iter (count - 1) k (pop_back v) else v

/-- `static_vector::shrink_by`. -/
def shrink_by (count : Int) (v : List α) : List α :=
  shrink_by_iter count v.length v

-- ---------------------------------------------------------------------------
-- Basic lemmas about the loops
-- ---------------------------------------------------------------------------

theorem pop_back_length_le (v : List α) : (pop_back v).length ≤ v.length := by
  simp [pop_back]

theorem shrink_to_iter_length_le (count : Int) (k : Nat) (v : List α) :
    (shrink_to_iter count k v).length ≤ v.length := by
  induction k generalizing v with
  | zero => simp [shrink_to_iter]
  | succ k ih =>
    simp only [shrink_to_iter]
    split
    · exact le_trans (ih (pop_back v)) (pop_back_length_le v)
    · exact le_rfl

theorem shrink_by_iter_length_le (count : Int) (k : Nat) (v : List α) :
    (shrink_by_iter count k v).length ≤ v.length := by
  induction k generalizing count v with
  | zero => simp [shrink_by_iter]
  | succ k ih =>
    simp only [shrink_by_iter]
    split
    · exact le_trans (ih (count - 1) (pop_back v)) (pop_back_length_le v)
    · exact le_rfl

/-- With enough fuel and a nonnegative target, the `shrink_to` loop computes
`v.take count.toNat`. -/
theorem shrink_to_iter_eq_take (count : Int) (hc : 0 ≤ count) (k : Nat) (v : List α)
    (hk : v.length ≤ k) : shrink_to_iter count k v = v.take count.toNat := by
  induction k generalizing v with
  | zero =>
    have : v = [] := List.length_eq_zero.mp (Nat.le_zero.mp hk)
    simp [shrink_to_iter, this]
  | succ k ih =>
    simp only [shrink_to_iter]
    split
    · next h =>
      have hlt : count.toNat < v.length := by omega
      have hlen : (pop_back v).length ≤ k := by
        have := pop_back_length_le v
        simp only [pop_back, List.length_dropLast] at *
        omega
      rw [ih (pop_back v) hlen]
      simp only [pop_back, List.dropLast_eq_take, List.take_take]
      congr 1
      omega
    · next h =>
      have : v.length ≤ count.toNat := by omega
      rw [List.take_of_length_le this]

theorem shrink_to_eq_take (count : Int) (hc : 0 ≤ count) (v : List α) :
    shrink_to count v = v.take count.toNat :=
  shrink_to_iter_eq_take count hc v.length v le_rfl

theorem shrink_to_nat_eq_take (n : Nat) (v : List α) :
    shrink_to (n : Int) v = v.take n := by
  rw [shrink_to_eq_take _ (by omega)]
  simp

-- ---------------------------------------------------------------------------
-- Bulk append primitives
-- ---------------------------------------------------------------------------

/-- Loop of `static_vector::emplace_back_many`:
`for (size_type i = 0; std::cmp_less (i, count); ++i) emplace_back (args...);`.
The remaining iteration count drives the recursion; `f i` is the outcome of
the element construction attempted on iteration `i`. -/
def ebm_go (cap : Nat) (f : Nat → Option α) : Nat → Nat → List α → Option Err × List α
  | _, 0, v => (none, v)
  | i, n + 1, v =>
    match emplace_back cap v (f i) with
    | (some e, w) => (some e, w)
    | (none, w) => ebm_go cap f (i + 1) n w

/-- `static_vector::emplace_back_many (count, args...)`: records
`previous_size = size ()`, runs the append loop, and on any exception does
`shrink_to (previous_size)` before rethrowing.  A negative `count` runs the
loop zero times (`std::cmp_less (0, count)` is false). -/
def emplace_back_many (cap : Nat) (f : Nat → Option α) (count : Int) (v : List α) :
    Option Err × List α :=
  match ebm_go cap f 0 count.toNat v with
  | (none, w) => (none, w)
  | (some e, w) => (some e, shrink_to (v.length : Int) w)

/-- Loop of the iterator-pair `static_vector::emplace_back_range`: one
`emplace_back (*first)` per input element; the list entry is the outcome of
constructing `value_type` from that input element. -/
def ebr_go (cap : Nat) : List (Option α) → List α → Option Err × List α
  | [], v => (none, v)
  | c :: rest, v =>
    match emplace_back cap v c with
    | (some e, w) => (some e, w)
    | (none, w) => ebr_go cap rest w

/-- `static_vector::emplace_back_range (first, last)` with the same
record-entry-size / rollback-on-exception structure as `emplace_back_many`. -/
def emplace_back_range (cap : Nat) (xs : List (Option α)) (v : List α) :
    Option Err × List α :=
  match ebr_go cap xs v with
  | (none, w) => (none, w)
  | (some e, w) => (some e, shrink_to (v.length : Int) w)

theorem ebm_go_extends (cap : Nat) (f : Nat → Option α) (i n : Nat) (v : List α) :
    ∃ t, (ebm_go cap f i n v).2 = v ++ t := by
  induction n generalizing i v with
  | zero => exact ⟨[], by simp [ebm_go]⟩
  | succ n ih =>
    by_cases hc : v.length = cap
    · exact ⟨[], by simp [ebm_go, emplace_back, hc]⟩
    · match hfi : f i with
      | some x =>
        obtain ⟨t, ht⟩ := ih (i + 1) (v ++ [x])
        refine ⟨x :: t, ?_⟩
        simp only [ebm_go, emplace_back, hc, if_false, hfi]
        simpa using ht
      | none => exact ⟨[], by simp [ebm_go, emplace_back, hc, hfi]⟩

theorem ebr_go_extends (cap : Nat) (xs : List (Option α)) (v : List α) :
    ∃ t, (ebr_go cap xs v).2 = v ++ t := by
  induction xs generalizing v with
  | nil => exact ⟨[], by simp [ebr_go]⟩
  | cons c rest ih =>
    by_cases hc : v.length = cap
    · exact ⟨[], by simp [ebr_go, emplace_back, hc]⟩
    · cases c with
      | some x =>
        obtain ⟨t, ht⟩ := ih (v ++ [x])
        refine ⟨x :: t, ?_⟩
        simp only [ebr_go, emplace_back, hc, if_false]
        simpa using ht
      | none => exact ⟨[], by simp [ebr_go, emplace_back, hc]⟩

/-- On any exception, `emplace_back_many` leaves the container exactly as it
was at entry (rollback via `shrink_to (previous_size)`). -/
theorem emplace_back_many_rollback (cap : Nat) (f : Nat → Option α) (count : Int)
    (v : List α) (h : (emplace_back_many cap f count v).1 ≠ none) :
    (emplace_back_many cap f count v).2 = v := by
  unfold emplace_back_many at *
  obtain ⟨t, ht⟩ := ebm_go_extends cap f 0 count.toNat v
  revert h ht
  match hgo : ebm_go cap f 0 count.toNat v with
  | (none, w) => intro h ht; simp at h
  | (some e, w) =>
    intro h ht
    simp only at ht ⊢
    subst ht
    rw [shrink_to_nat_eq_take]
    simp

theorem emplace_back_range_rollback (cap : Nat) (xs : List (Option α))
    (v : List α) (h : (emplace_back_range cap xs v).1 ≠ none) :
    (emplace_back_range cap xs v).2 = v := by
  unfold emplace_back_range at *
  obtain ⟨t, ht⟩ := ebr_go_extends cap xs v
  revert h ht
  match hgo : ebr_go cap xs v with
  | (none, w) => intro h ht; simp at h
  | (some e, w) =>
    intro h ht
    simp only at ht ⊢
    subst ht
    rw [shrink_to_nat_eq_take]
    simp

-- ---------------------------------------------------------------------------
-- resize, insert, erase, accessors
-- ---------------------------------------------------------------------------

/-- `static_vector::resize (count)` — the one-argument, default-constructing
form.  Source:
`if (std::cmp_less_equal (count, size ())) { shrink_to (count); } else { emplace_back_many (count); }`.
Note the `else` branch passes `count` itself to `emplace_back_many`, not
`count - size ()` (unlike the two-argument `resize (count, init)` which
passes `static_cast<size_type> (count) - size ()`).  `f` is the outcome of
the `i`-th default construction. -/
def resize (cap : Nat) (f : Nat → Option α) (count : Int) (v : List α) :
    Option Err × List α :=
  if count ≤ (v.length : Int) then (none, shrink_to count v)
  else emplace_back_many cap f count v

/-- `static_vector::resize (count, init)` — the two-argument form; its grow
branch is `emplace_back_many (static_cast<size_type> (count) - size (), init)`. -/
def resize_with (cap : Nat) (count : Int) (init : α) (v : List α) :
    Option Err × List α :=
  if count ≤ (v.length : Int) then (none, shrink_to count v)
  else emplace_back_many cap (fun _ => some init) ((count.toNat - v.length : Nat) : Int) v

/-- `std::ranges::rotate (first, mid, last)` restricted to a suffix of the
live region: positions `[0, first)` are untouched and the range
`[first, v.length)` is cyclically permuted so that the element at `mid`
becomes the element at `first`.  (Callers guarantee
`first ≤ mid ≤ v.length`.) -/
def rotateRange (v : List α) (first mid : Nat) : List α :=
  v.take first ++ v.drop mid ++ (v.take mid).drop first

/-- `static_vector::insert (pos, init)` (single element): `emplace_back (init)`
followed by `std::ranges::rotate (pos, end () - 1, end ())`; returns `pos`.
`i` is the index of `pos` within the container. -/
def insert1 (cap : Nat) (v : List α) (i : Nat) (ctor : Option α) :
    Option Err × List α :=
  match emplace_back cap v ctor with
  | (some e, w) => (some e, w)
  | (none, w) => (none, rotateRange w i (w.length - 1))

/-- Effect of `std::ranges::move (pos + 1, end (), pos)` inside
`static_vector::erase (pos)`: positions `[i, n - 1)` receive the old values
of positions `[i + 1, n)`, and the last position keeps its old value (it is
only moved *from*; on the value level the moved-from husk still occupies the
slot until `pop_back` destroys it). -/
def moveDown (v : List α) (i : Nat) : List α :=
  v.take i ++ v.drop (i + 1) ++ v.drop (v.length - 1)

/-- `static_vector::erase (pos)`:
`if (pos != end ()) { std::ranges::move (pos + 1, end (), pos); pop_back (); return pos; }`.
There is no `else` branch and no fall-through return statement, so when
`pos == end ()` control flows off the end of the value-returning function:
modelled as `none` (undefined behaviour, no value produced).  For
`pos != end ()` the result is the new element state paired with the returned
iterator index. -/
def erase1 (v : List α) (i : Nat) : Option (List α × Nat) :=
  if i ≠ v.length then some (pop_back (moveDown v i), i) else none

/-- `static_vector::at (index)`:
`if (std::cmp_less (index, 0) || std::cmp_less_equal (size (), index)) throw std::out_of_range (...); else return m_storage[index].value ();`.
`none` models the thrown `std::out_of_range`. -/
def at_ (v : List α) (i : Int) : Option α :=
  if i < 0 ∨ (v.length : Int) ≤ i then none
  else v[i.toNat]?

/-- `static_vector::operator[] (index)`: `return at (index);`. -/
def getIdx (v : List α) (i : Int) : Option α := at_ v i

/-- `static_vector::front ()`: `return at (0u);`. -/
def front_ (v : List α) : Option α := at_ v 0

/-- `static_vector::back ()`: `return at (size () - 1);`.  `size ()` has type
`size_type = std::size_t`, so `size () - 1` is computed modulo `2 ^ 64`
(on an empty container it wraps to `2 ^ 64 - 1`), and the resulting unsigned
value is what `at` receives. -/
def back_ (v : List α) : Option α :=
  at_ v (((v.length + (2 ^ 64 - 1)) % 2 ^ 64 : Nat) : Int)

-- ---------------------------------------------------------------------------
-- storage_iterator
-- ---------------------------------------------------------------------------

/-- `ml::details::storage_iterator`: wraps a single pointer `m_ptr` into the
slot array, modelled as an integer offset. -/
structure StorageIterator where
  ptr : Int
deriving DecidableEq

/-- `storage_iterator::operator++ ()` (prefix): `++m_ptr; return *this;`. -/
def it_inc (it : StorageIterator) : StorageIterator := ⟨it.ptr + 1⟩

/-- `storage_iterator::operator-- ()` (prefix): `--m_ptr; return *this;`. -/
def it_dec (it : StorageIterator) : StorageIterator := ⟨it.ptr - 1⟩

/-- `storage_iterator::operator++ (int)` (postfix):
`auto copy = *this; ++*this; return copy;` — result is the pair
(state after the call, value returned to the caller). -/
def it_post_inc (it : StorageIterator) : StorageIterator × StorageIterator :=
  let copy := it
  let next := it_inc it
  (next, copy)

/-- `storage_iterator::operator-- (int)` (postfix):
`auto copy = *this; --*this; return *this;` — the source declares `copy` but
returns `*this`, i.e. the already-decremented iterator, so both components
are the decremented value. -/
def it_post_dec (it : StorageIterator) : StorageIterator × StorageIterator :=
  let next := it_dec it
  (next, next)

-- ---------------------------------------------------------------------------
-- Slot-level machine: construct/destroy liveness tracking
-- ---------------------------------------------------------------------------

/-- Machine state for the slot-liveness analysis: the container's `m_size`,
the per-slot liveness of the backing array, and a flag recording whether any
slot-contract violation has occurred (a `destroy ()` on a dead slot or a
`construct (...)` on a live slot). -/
structure MState where
  size : Nat
  live : List Bool
  bad : Bool
deriving DecidableEq

/-- The container calls `m_storage[i].construct (...)`: slot `i` becomes
live; calling it on an already-live slot is a contract violation. -/
def slot_construct (s : MState) (i : Nat) : MState :=
  ⟨s.size, s.live.set i true, s.bad || s.live.getD i false⟩

/-- The container calls `m_storage[i].destroy ()`: slot `i` becomes dead;
calling it on an already-dead slot is a contract violation (for a
non-trivially-destructible element type, `lazy_storage::destroy` runs
`std::ranges::destroy_at` on storage holding no object). -/
def slot_destroy (s : MState) (i : Nat) : MState :=
  ⟨s.size, s.live.set i false, s.bad || !(s.live.getD i false)⟩

/-- `static_vector::pop_back` at the slot level:
`if (!empty ()) { m_size--; m_storage[m_size].destroy (); }`. -/
def m_pop_back (s : MState) : MState :=
  if s.size = 0 then s
  else
    let s1 : MState := ⟨s.size - 1, s.live, s.bad⟩
    slot_destroy s1 s1.size

/-- `static_vector::emplace_back` at the slot level: check `full ()`, then
`m_size++` followed by `m_storage[m_size - 1].construct (...)`; if the
element constructor throws (`ctorOk = false`) the slot stays dead and the
catch handler runs `pop_back ()` before rethrowing.  Result: (whether an
exception propagated, resulting machine state). -/
def m_emplace_back (cap : Nat) (ctorOk : Bool) (s : MState) : Bool × MState :=
  if s.size = cap then (true, s)
  else
    let s1 : MState := ⟨s.size + 1, s.live, s.bad⟩
    if ctorOk then (false, slot_construct s1 (s1.size - 1))
    else (true, m_pop_back s1)

-- ---------------------------------------------------------------------------
-- Operation sequences (for the capacity invariant)
-- ---------------------------------------------------------------------------

/-- One public mutating operation of the container.  `Option α` arguments
model fallible element constructions, `Nat → Option α` a per-attempt
construction schedule for bulk fills, and `List (Option α)` an input range
whose elements may each fail to convert. -/
inductive Op (α : Type) where
  | emplaceBack (ctor : Option α)
  | popBack
  | clear
  | shrinkBy (n : Int)
  | shrinkTo (n : Int)
  | resizeDefault (n : Int) (f : Nat → Option α)
  | resizeWith (n : Int) (init : α)
  | insertAt (i : Nat) (ctor : Option α)
  | eraseAt (i : Nat)
  | emplaceBackMany (n : Int) (f : Nat → Option α)
  | emplaceBackRange (xs : List (Option α))

/-- Effect of one operation on the container state: (exception propagated?,
resulting element state).  For `insertAt`/`eraseAt` an iterator outside
`[begin, end]` is undefined behaviour in the C++ source; such unreachable
calls are modelled as leaving the state unchanged.  `shrinkTo` with a
negative `n` does not terminate in the C++ source; its modelled state is one
of the loop's reachable states (the loop only pops, so no state of larger
size is ever observable). -/
def stepOp (cap : Nat) (op : Op α) (v : List α) : Option Err × List α :=
  match op with
  | .emplaceBack c => emplace_back cap v c
  | .popBack => (none, pop_back v)
  | .clear => (none, shrink_to 0 v)
  | .shrinkBy n => (none, shrink_by n v)
  | .shrinkTo n => (none, shrink_to n v)
  | .resizeDefault n f => resize cap f n v
  | .resizeWith n x => resize_with cap n x v
  | .insertAt i c => if i ≤ v.length then insert1 cap v i c else (none, v)
  | .eraseAt i => if i < v.length then (none, pop_back (moveDown v i)) else (none, v)
  | .emplaceBackMany n f => emplace_back_many cap f n v
  | .emplaceBackRange xs => emplace_back_range cap xs v

/-- All container states observable after each operation of a sequence. -/
def runTrace (cap : Nat) (v : List α) : List (Op α) → List (List α)
  | [] => []
  | op :: ops =>
    let w := (stepOp cap op v).2
    w :: runTrace cap w ops

-- ---------------------------------------------------------------------------
-- Length bounds for every operation
-- ---------------------------------------------------------------------------

theorem emplace_back_length (cap : Nat) (v : List α) (c : Option α)
    (h : v.length ≤ cap) : (emplace_back cap v c).2.length ≤ cap := by
  unfold emplace_back
  by_cases hc : v.length = cap
  · simp [hc]
  · cases c <;> simp [hc] <;> omega

theorem ebm_go_length (cap : Nat) (f : Nat → Option α) (i n : Nat) (v : List α)
    (h : v.length ≤ cap) : (ebm_go cap f i n v).2.length ≤ cap := by
  induction n generalizing i v with
  | zero => simpa [ebm_go]
  | succ n ih =>
    by_cases hc : v.length = cap
    · simp [ebm_go, emplace_back, hc]
    · match hfi : f i with
      | some x =>
        simp only [ebm_go, emplace_back, hc, if_false, hfi]
        exact ih (i + 1) (v ++ [x]) (by simp; omega)
      | none => simp [ebm_go, emplace_back, hc, hfi]; omega

theorem ebr_go_length (cap : Nat) (xs : List (Option α)) (v : List α)
    (h : v.length ≤ cap) : (ebr_go cap xs v).2.length ≤ cap := by
  induction xs generalizing v with
  | nil => simpa [ebr_go]
  | cons c rest ih =>
    by_cases hc : v.length = cap
    · simp [ebr_go, emplace_back, hc]
    · cases c with
      | some x =>
        simp only [ebr_go, emplace_back, hc, if_false]
        exact ih (v ++ [x]) (by simp; omega)
      | none => simp [ebr_go, emplace_back, hc]; omega

theorem shrink_to_length_le (count : Int) (v : List α) :
    (shrink_to count v).length ≤ v.length :=
  shrink_to_iter_length_le count v.length v

theorem shrink_by_length_le (count : Int) (v : List α) :
    (shrink_by count v).length ≤ v.length :=
  shrink_by_iter_length_le count v.length v

theorem emplace_back_many_length (cap : Nat) (f : Nat → Option α) (count : Int)
    (v : List α) (h : v.length ≤ cap) :
    (emplace_back_many cap f count v).2.length ≤ cap := by
  unfold emplace_back_many
  have hgo := ebm_go_length cap f 0 count.toNat v h
  match hr : ebm_go cap f 0 count.toNat v with
  | (none, w) => rw [hr] at hgo; exact hgo
  | (some e, w) =>
    rw [hr] at hgo
    exact le_trans (shrink_to_length_le _ w) hgo

theorem emplace_back_range_length (cap : Nat) (xs : List (Option α))
    (v : List α) (h : v.length ≤ cap) :
    (emplace_back_range cap xs v).2.length ≤ cap := by
  unfold emplace_back_range
  have hgo := ebr_go_length cap xs v h
  match hr : ebr_go cap xs v with
  | (none, w) => rw [hr] at hgo; exact hgo
  | (some e, w) =>
    rw [hr] at hgo
    exact le_trans (shrink_to_length_le _ w) hgo

theorem rotateRange_length (v : List α) (first mid : Nat)
    (h1 : first ≤ mid) (h2 : mid ≤ v.length) :
    (rotateRange v first mid).length = v.length := by
  simp [rotateRange]
  omega

theorem insert1_length (cap : Nat) (v : List α) (i : Nat) (c : Option α)
    (hv : v.length ≤ cap) (hi : i ≤ v.length) :
    (insert1 cap v i c).2.length ≤ cap := by
  unfold insert1 emplace_back
  by_cases hc : v.length = cap
  · simp [hc]
  · cases c with
    | some x =>
      simp only [hc, if_false]
      rw [rotateRange_length] <;> simp <;> omega
    | none => simp [hc]; omega

theorem moveDown_length (v : List α) (i : Nat) (h : i < v.length) :
    (moveDown v i).length = v.length := by
  simp [moveDown]
  omega

theorem stepOp_length (cap : Nat) (op : Op α) (v : List α) (h : v.length ≤ cap) :
    (stepOp cap op v).2.length ≤ cap := by
  cases op with
  | emplaceBack c => exact emplace_back_length cap v c h
  | popBack => exact le_trans (pop_back_length_le v) h
  | clear => exact le_trans (shrink_to_length_le 0 v) h
  | shrinkBy n => exact le_trans (shrink_by_length_le n v) h
  | shrinkTo n => exact le_trans (shrink_to_length_le n v) h
  | resizeDefault n f =>
    simp only [stepOp, resize]
    split
    · exact le_trans (shrink_to_length_le n v) h
    · exact emplace_back_many_length cap f n v h
  | resizeWith n x =>
    simp only [stepOp, resize_with]
    split
    · exact le_trans (shrink_to_length_le n v) h
    · exact emplace_back_many_length cap _ _ v h
  | insertAt i c =>
    simp only [stepOp]
    split
    · next hi => exact insert1_length cap v i c h hi
    · exact h
  | eraseAt i =>
    simp only [stepOp]
    split
    · next hi =>
      calc (pop_back (moveDown v i)).length
          ≤ (moveDown v i).length := pop_back_length_le _
        _ = v.length := moveDown_length v i hi
        _ ≤ cap := h
    · exact h
  | emplaceBackMany n f => exact emplace_back_many_length cap f n v h
  | emplaceBackRange xs => exact emplace_back_range_length cap xs v h

theorem runTrace_length (cap : Nat) (v : List α) (ops : List (Op α))
    (h : v.length ≤ cap) : ∀ w ∈ runTrace cap v ops, w.length ≤ cap := by
  induction ops generalizing v with
  | nil => intro w hw; simp [runTrace] at hw
  | cons op ops ih =>
    intro w hw
    simp only [runTrace, List.mem_cons] at hw
    rcases hw with rfl | hw
    · exact stepOp_length cap op v h
    · exact ih (stepOp cap op v).2 (stepOp_length cap op v h) w hw

-- ---------------------------------------------------------------------------
-- A capacity/full error leaves the container at its entry state
-- ---------------------------------------------------------------------------

theorem emplace_back_error_unchanged (cap : Nat) (v : List α) (c : Option α)
    (h : (emplace_back cap v c).1 ≠ none) : (emplace_back cap v c).2 = v := by
  unfold emplace_back at *
  by_cases hc : v.length = cap
  · simp [hc]
  · cases c with
    | some x => simp [hc] at h
    | none => simp [hc]

theorem stepOp_cap_error_unchanged (cap : Nat) (op : Op α) (v : List α)
    (h : (stepOp cap op v).1 = some Err.cap) : (stepOp cap op v).2 = v := by
  cases op with
  | emplaceBack c =>
    exact emplace_back_error_unchanged cap v c (by simp [stepOp] at h ⊢; simp [h])
  | popBack => simp [stepOp] at h
  | clear => simp [stepOp] at h
  | shrinkBy n => simp [stepOp] at h
  | shrinkTo n => simp [stepOp] at h
  | resizeDefault n f =>
    simp only [stepOp, resize] at h ⊢
    by_cases hn : n ≤ (v.length : Int)
    · rw [if_pos hn] at h; simp at h
    · rw [if_neg hn] at h ⊢
      exact emplace_back_many_rollback cap f n v (by rw [h]; simp)
  | resizeWith n x =>
    simp only [stepOp, resize_with] at h ⊢
    by_cases hn : n ≤ (v.length : Int)
    · rw [if_pos hn] at h; simp at h
    · rw [if_neg hn] at h ⊢
      exact emplace_back_many_rollback cap _ _ v (by rw [h]; simp)
  | insertAt i c =>
    simp only [stepOp] at h ⊢
    split at h
    · next hi =>
      simp only [if_pos hi]
      simp only [insert1] at h ⊢
      have hne : (emplace_back cap v c).1 ≠ none := by
        revert h
        match hr : emplace_back cap v c with
        | (some e, w) => intro _; simp
        | (none, w) => intro h; simp at h
      have := emplace_back_error_unchanged cap v c hne
      revert h this
      match hr : emplace_back cap v c with
      | (some e, w) => intro h this; simpa using this
      | (none, w) => intro h _; simp at h
    · next hi => simp [if_neg hi]
  | eraseAt i =>
    simp only [stepOp] at h
    split at h <;> simp at h
  | emplaceBackMany n f =>
    simp only [stepOp] at h ⊢
    exact emplace_back_many_rollback cap f n v (by rw [h]; simp)
  | emplaceBackRange xs =>
    simp only [stepOp] at h ⊢
    exact emplace_back_range_rollback cap xs v (by rw [h]; simp)

-- ---------------------------------------------------------------------------
-- Constructors and push_back
-- ---------------------------------------------------------------------------

/-- Size constructor `static_vector (count)` (2/8): the body is
`emplace_back_many (count);` starting from an empty container; `f` is the
outcome of the `i`-th default construction. -/
def ctor_count (cap : Nat) (f : Nat → Option α) (count : Int) : Option Err × List α :=
  emplace_back_many cap f count []

/-- Size-and-initial-value constructor `static_vector (count, init)` (3/8):
the body is `emplace_back_many (count, init);` starting from an empty
container. -/
def ctor_count_init (cap : Nat) (count : Int) (init : α) : Option Err × List α :=
  emplace_back_many cap (fun _ => some init) count []

/-- `static_vector::push_back (init)`: `return emplace_back (init);`
(both the copying and the moving overload forward to `emplace_back`). -/
def push_back (cap : Nat) (v : List α) (ctor : Option α) : Option Err × List α :=
  emplace_back cap v ctor

-- ---------------------------------------------------------------------------
-- Claim theorems
-- ---------------------------------------------------------------------------

/-- C1: the one-argument `resize (count)` does NOT behave as claimed.  Its
grow branch calls `emplace_back_many (count)` — appending `count` elements —
instead of `emplace_back_many (count - size ())`.  On a container `{1,2,3}`
of capacity 10, `resize (5)` therefore succeeds with final size 8 (not 5),
and on a container `{1,2,3}` of capacity 6, `resize (5)` throws the capacity
`std::logic_error` and rolls back to size 3, even though 5 ≤ capacity. -/
theorem resize_one_arg_appends_count_elements :
    resize 10 (fun _ => some (0 : Int)) 5 [1, 2, 3]
        = (none, [1, 2, 3, 0, 0, 0, 0, 0]) ∧
    resize 6 (fun _ => some (0 : Int)) 5 [1, 2, 3] = (some Err.cap, [1, 2, 3]) := by
  constructor <;> rfl

theorem shrink_to_iter_neg_one_empty (k : Nat) :
    shrink_to_iter (-1) k ([] : List Int) = [] := by
  induction k with
  | zero => rfl
  | succ k ih => simpa [shrink_to_iter, pop_back]

/-- C2: `shrink_to` does NOT terminate for a negative count.  The loop
condition `std::cmp_less (count, size ())` stays true forever because
`pop_back ()` on an empty container is a silent no-op: no number of
iterations ever falsifies the condition for `count = -1` starting from the
empty container (which the loop reaches after popping everything). -/
theorem shrink_to_negative_count_never_halts :
    ¬ shrink_to_halts (-1) ([] : List Int) := by
  rintro ⟨k, hk⟩
  rw [shrink_to_iter_neg_one_empty k] at hk
  simp at hk

/-- C3: `erase (pos)` with `pos == end ()` does NOT return `end ()`: the
function body is a single `if (pos != end ()) { ...; return pos; }` with no
other return statement, so at `pos == end ()` control flows off the end of
the value-returning function (undefined behaviour), modelled as `none`.
For `pos` strictly before `end ()` the claimed shift-down/pop behaviour does
hold (second conjunct, at index 1 of `{1,2,3}`). -/
theorem erase_at_end_falls_off_function :
    erase1 ([1, 2, 3] : List Int) 3 = none ∧
    erase1 ([1, 2, 3] : List Int) 1 = some ([1, 3], 1) := by
  constructor <;> rfl

/-- C4: `push_back`/`emplace_back` raise the full-container error exactly
when `size () == capacity ()` at the call, and on any thrown exception
(full-container error or element-constructor throw) the container is left
exactly in its entry state; `push_back` forwards to `emplace_back`. -/
theorem emplace_back_full_error_iff_and_no_effect (cap : Nat) (v : List Int)
    (c : Option Int) :
    ((emplace_back cap v c).1 = some Err.cap ↔ v.length = cap) ∧
    ((emplace_back cap v c).1 ≠ none → (emplace_back cap v c).2 = v) ∧
    push_back cap v c = emplace_back cap v c := by
  refine ⟨?_, emplace_back_error_unchanged cap v c, rfl⟩
  unfold emplace_back
  by_cases hc : v.length = cap
  · simp [hc]
  · cases c <;> simp [hc]

theorem emplace_back_full_error_iff_and_no_effect_witness :
    ((emplace_back 2 [(1 : Int)] none).1 ≠ none) ∧
    (emplace_back 2 [(1 : Int)] none).2 = [1] :=
  ⟨by decide, (emplace_back_full_error_iff_and_no_effect 2 [1] none).2.1 (by decide)⟩

/-- C5: the error-recovery path of `emplace_back` violates the slot contract.
After `m_size++`, a throwing element constructor leaves slot `old_size` dead,
and the `catch` handler's `pop_back ()` then calls `destroy ()` on that dead
slot (first conjunct: the violation flag is set on a capacity-2 container
with an initially-dead slot array).  The success path is clean (second
conjunct). -/
theorem emplace_back_rollback_destroys_dead_slot :
    ((m_emplace_back 2 false ⟨0, [false, false], false⟩).2).bad = true ∧
    (m_emplace_back 2 true ⟨0, [false, false], false⟩).2
        = ⟨1, [true, false], false⟩ := by
  constructor <;> rfl

/-- C8: `storage_iterator::operator-- (int)` does NOT implement standard
postfix semantics: it saves `copy = *this` but then `return *this`, so the
caller receives the already-decremented iterator (offset 4, not the original
5).  Postfix increment is correct (second conjunct). -/
theorem postfix_decrement_returns_decremented :
    (it_post_dec ⟨5⟩).2 = (⟨4⟩ : StorageIterator) ∧
    (it_post_inc ⟨5⟩).2 = (⟨5⟩ : StorageIterator) ∧
    (it_post_inc ⟨5⟩).1 = (⟨6⟩ : StorageIterator) := by
  refine ⟨rfl, rfl, rfl⟩

/-- C10: a negative integral count makes the size-only constructor, the
size-plus-initial-value constructor and `emplace_back_many` perform zero
element constructions and leave the container unchanged (empty for the
constructors), raising no error: the loop guard `std::cmp_less (i, count)`
is false at `i = 0`. -/
theorem negative_count_constructors_and_bulk_noop (cap : Nat) (n : Int)
    (hn : n < 0) (f : Nat → Option Int) (init : Int) (v : List Int) :
    ctor_count cap f n = (none, []) ∧
    ctor_count_init cap n init = (none, []) ∧
    emplace_back_many cap f n v = (none, v) := by
  have h0 : n.toNat = 0 := by omega
  refine ⟨?_, ?_, ?_⟩ <;>
    simp [ctor_count, ctor_count_init, emplace_back_many, h0, ebm_go]

theorem negative_count_constructors_and_bulk_noop_witness :
    ((-3 : Int) < 0) ∧
    emplace_back_many 5 (fun _ => some (7 : Int)) (-3) [1, 2] = (none, [1, 2]) :=
  ⟨by decide,
    (negative_count_constructors_and_bulk_noop 5 (-3) (by decide)
      (fun _ => some 7) 7 [1, 2]).2.2⟩

/-- C6: starting from any state a constructor can produce (any state with
`size ≤ capacity`; every constructor builds through `emplace_back`, so this
holds of all of them), every state observable after each operation of an
arbitrary operation sequence satisfies `size () ≤ capacity ()`; and whenever
an operation raises the capacity/full `std::logic_error`, the container is
left exactly in the state recorded at the operation's entry (single-element
operations check before mutating; bulk operations shrink back to
`previous_size` before rethrowing). -/
theorem capacity_invariant_and_cap_error_rollback (cap : Nat) (v : List Int)
    (ops : List (Op Int)) (h : v.length ≤ cap) :
    (∀ w ∈ runTrace cap v ops, w.length ≤ cap) ∧
    (∀ (op : Op Int) (w : List Int), (stepOp cap op w).1 = some Err.cap →
      (stepOp cap op w).2 = w) :=
  ⟨runTrace_length cap v ops h, fun op w hw => stepOp_cap_error_unchanged cap op w hw⟩

theorem capacity_invariant_and_cap_error_rollback_witness :
    (([1] : List Int).length ≤ 2) ∧ (([1, 5] : List Int).length ≤ 2) :=
  ⟨by decide,
    (capacity_invariant_and_cap_error_rollback 2 [1] [Op.emplaceBack (some 5)]
      (by decide)).1 [1, 5] (by decide)⟩

theorem rotate_last_to_pos (v : List α) (x : α) (i : Nat) (hi : i ≤ v.length) :
    rotateRange (v ++ [x]) i ((v ++ [x]).length - 1) = v.take i ++ x :: v.drop i := by
  have h1 : (v ++ [x]).length - 1 = v.length := by simp
  rw [h1, rotateRange, List.take_append_of_le_length hi, List.drop_left, List.take_left]
  simp

theorem erase_of_insert (v : List α) (x : α) (i : Nat) (hi : i ≤ v.length) :
    erase1 (v.take i ++ x :: v.drop i) i = some (v, i) := by
  set w := v.take i ++ x :: v.drop i with hw
  have hti : (v.take i).length = i := by simp; omega
  have hlen : w.length = v.length + 1 := by simp [hw]; omega
  have hne : i ≠ w.length := by omega
  rw [erase1, if_pos hne]
  have hmd : moveDown w i = (v.take i ++ v.drop i) ++ w.drop (w.length - 1) := by
    rw [moveDown]
    congr 1
    congr 1
    · rw [hw, List.take_append_of_le_length (le_of_eq hti.symm), List.take_take]
      simp
    · rw [hw, List.drop_append_eq_append_drop, hti]
      have : (v.take i).drop (i + 1) = [] := by
        rw [List.drop_eq_nil_iff]
        omega
      simp [this]
  obtain ⟨a, ha⟩ : ∃ a, w.drop (w.length - 1) = [a] := by
    rw [← List.length_eq_one]
    rw [List.length_drop]
    omega
  rw [hmd, ha, pop_back, List.dropLast_concat, List.take_append_drop]

/-- C7: on a non-full container, inserting a value at any position
`i ∈ [begin, end]` and then erasing at the same position restores a container
equal to the original: the insert succeeds (no exception) and the subsequent
erase returns the original element sequence together with the iterator `i`. -/
theorem insert_then_erase_round_trip (cap : Nat) (v : List Int) (i : Nat) (x : Int)
    (hcap : v.length < cap) (hi : i ≤ v.length) :
    (insert1 cap v i (some x)).1 = none ∧
    erase1 (insert1 cap v i (some x)).2 i = some (v, i) := by
  have hne : v.length ≠ cap := by omega
  have hins : insert1 cap v i (some x) = (none, v.take i ++ x :: v.drop i) := by
    rw [insert1, emplace_back, if_neg hne]
    simp only
    rw [rotate_last_to_pos v x i hi]
  rw [hins]
  exact ⟨rfl, erase_of_insert v x i hi⟩

theorem insert_then_erase_round_trip_witness :
    (([10, 20] : List Int).length < 3 ∧ 1 ≤ ([10, 20] : List Int).length) ∧
    ((insert1 3 [10, 20] 1 (some 9)).1 = none ∧
      erase1 (insert1 3 [(10 : Int), 20] 1 (some 9)).2 1 = some ([10, 20], 1)) :=
  ⟨⟨by decide, by decide⟩,
    insert_then_erase_round_trip 3 [10, 20] 1 9 (by decide) (by decide)⟩

/-- C9: `at (i)` fails exactly on indices outside `[0, size)` (every negative
index included) and otherwise returns the element at position `i`;
`operator[]` forwards to `at`; `front ()` is `at (0)` and fails exactly on an
empty container; `back ()` is `at (size () - 1)` computed in the unsigned
`size_type` (so on an empty container the index wraps and is out of range),
failing exactly on an empty container.  The accessors never mutate the
container (they are modelled as pure functions of `v`). -/
theorem at_bounds_check_and_front_back_delegation (v : List Int) (i : Int)
    (hsz : v.length < 2 ^ 64) :
    (at_ v i = none ↔ i < 0 ∨ (v.length : Int) ≤ i) ∧
    (0 ≤ i → i < (v.length : Int) → at_ v i = v[i.toNat]?) ∧
    (getIdx v i = at_ v i) ∧
    (front_ v = at_ v 0) ∧
    (front_ v = none ↔ v = []) ∧
    (back_ v = none ↔ v = []) ∧
    (v ≠ [] → back_ v = at_ v ((v.length : Int) - 1)) := by
  have hiff : ∀ j : Int, (at_ v j = none ↔ j < 0 ∨ (v.length : Int) ≤ j) := by
    intro j
    by_cases hcond : j < 0 ∨ (v.length : Int) ≤ j
    · simp [at_, hcond]
    · have hj : j.toNat < v.length := by omega
      simp [at_, hcond, List.getElem?_eq_getElem hj]
  refine ⟨hiff i, ?_, rfl, rfl, ?_, ?_, ?_⟩
  · intro h0 hlt
    rw [at_, if_neg (by omega)]
  · rw [front_, hiff 0]
    simp [List.length_eq_zero]
  · rw [back_, hiff]
    constructor
    · intro h
      rcases h with h | h
      · omega
      · have : (v.length + (2 ^ 64 - 1)) % 2 ^ 64 < 2 ^ 64 := by omega
        rw [← List.length_eq_zero]
        omega
    · intro h
      subst h
      simp
  · intro hne
    have hlen : 1 ≤ v.length := by
      cases v with
      | nil => exact absurd rfl hne
      | cons a t => simp
    rw [back_]
    congr 1
    omega

theorem at_bounds_check_and_front_back_delegation_witness :
    (([10, 20] : List Int).length < 2 ^ 64) ∧
    (at_ ([10, 20] : List Int) (-1) = none ↔
      (-1 : Int) < 0 ∨ ((([10, 20] : List Int).length : Int) ≤ -1)) :=
  ⟨by decide,
    (at_bounds_check_and_front_back_delegation [10, 20] (-1) (by decide)).1⟩

end StaticVector
